/-
Verification of the repository-state synchronization engine of
interactive-graphite-log.

Strings from the TypeScript source are modelled as `List Char`.  The
JavaScript string operations used by the code (`split` on a multi-character
separator, `trim`, `substring`, `startsWith`, `endsWith`, `includes`) are
re-implemented below over `List Char` with the same semantics
(left-to-right, non-overlapping occurrences for `split`; ASCII whitespace
for `trim`, which suffices because every input the claims quantify over is
built from the parser's ASCII separator tokens).
-/
import Mathlib

set_option maxHeartbeats 1000000
set_option maxRecDepth 4000

/-- Leading-segment test: `leadMatch pat s` is `true` iff `pat` starts `s`
(the JS `s.startsWith(pat)`). -/
def leadMatch : List Char → List Char → Bool
  | [], _ => true
  | _ :: _, [] => false
  | p :: ps, c :: cs => p == c && leadMatch ps cs

/-- Occurrence test: `occursIn pat s` is `true` iff `pat` occurs contiguously in `s`
(the JS `s.includes(pat)`). -/
def occursIn (pat : List Char) : List Char → Bool
  | [] => pat.isEmpty
  | c :: cs => leadMatch pat (c :: cs) || occursIn pat cs

theorem leadMatch_iff (p : List Char) : ∀ s : List Char,
    leadMatch p s = true ↔ ∃ t, s = p ++ t := by
  induction p with
  | nil => intro s; simp [leadMatch]
  | cons a as ih =>
    intro s
    cases s with
    | nil => simp [leadMatch]
    | cons c cs =>
      simp only [leadMatch, Bool.and_eq_true, beq_iff_eq, ih, List.cons_append,
        List.cons.injEq]
      constructor
      · rintro ⟨rfl, t, rfl⟩; exact ⟨t, rfl, rfl⟩
      · rintro ⟨t, rfl, rfl⟩; exact ⟨rfl, t, rfl⟩

theorem occursIn_iff (pat : List Char) : ∀ s : List Char,
    occursIn pat s = true ↔ ∃ a b, s = a ++ pat ++ b := by
  intro s
  induction s with
  | nil =>
    simp only [occursIn, List.isEmpty_iff]
    constructor
    · rintro rfl; exact ⟨[], [], rfl⟩
    · rintro ⟨a, b, h⟩
      rcases List.append_eq_nil.mp h.symm with ⟨h1, h2⟩
      exact (List.append_eq_nil.mp h1).2
  | cons c cs ih =>
    simp only [occursIn, Bool.or_eq_true, leadMatch_iff, ih]
    constructor
    · rintro (⟨t, ht⟩ | ⟨a, b, rfl⟩)
      · exact ⟨[], t, by simpa using ht⟩
      · exact ⟨c :: a, b, rfl⟩
    · rintro ⟨a, b, h⟩
      cases a with
      | nil => exact Or.inl ⟨b, by simpa using h⟩
      | cons x xs =>
        simp only [List.cons_append, List.cons.injEq] at h
        exact Or.inr ⟨xs, b, h.2⟩

theorem occursIn_eq_false_iff (pat s : List Char) :
    occursIn pat s = false ↔ ¬ ∃ a b, s = a ++ pat ++ b := by
  rw [← occursIn_iff]
  cases h : occursIn pat s <;> simp

/-- A middle segment of an occurrence-free list is occurrence-free. -/
theorem occursIn_false_of_middle (pat u v w : List Char)
    (h : occursIn pat (u ++ v ++ w) = false) : occursIn pat v = false := by
  rw [occursIn_eq_false_iff] at h ⊢
  rintro ⟨a, b, rfl⟩
  exact h ⟨u ++ a, b ++ w, by simp⟩

/-! ## A JS-faithful `String.prototype.split` over `List Char`

`splitOnFuel` splits on the leftmost, non-overlapping occurrences of the
(structurally nonempty) separator `p :: ps`, exactly like the JavaScript
`split` used throughout `templates.ts` and `Repository.ts`.  The fuel
argument (always instantiated with the length of the list) keeps the
recursion structural so that the kernel can evaluate it. -/

/-- Prepend a character to the first piece of a split result. -/
def consHead (c : Char) : List (List Char) → List (List Char)
  | [] => [[c]]
  | h :: t => (c :: h) :: t

def splitOnFuel (p : Char) (ps : List Char) : Nat → List Char → List (List Char)
  | _, [] => [[]]
  | 0, _ :: _ => [[]]
  | fuel + 1, c :: rest =>
    if leadMatch (p :: ps) (c :: rest) then
      [] :: splitOnFuel p ps fuel (rest.drop ps.length)
    else
      consHead c (splitOnFuel p ps fuel rest)

/-- Canonical splitter on the separator `p :: ps`. -/
def splitOnC (p : Char) (ps : List Char) (s : List Char) : List (List Char) :=
  splitOnFuel p ps s.length s

/-- Models the JS `s.split(sep)` (with `sep` nonempty,
as it always is in the source). -/
def splitOnL (sep s : List Char) : List (List Char) :=
  match sep with
  | [] => [s]
  | p :: ps => splitOnC p ps s

theorem splitOnFuel_fuel_irrel (p : Char) (ps : List Char) :
    ∀ (fuel₁ : Nat) (s : List Char) (fuel₂ : Nat), s.length ≤ fuel₁ → s.length ≤ fuel₂ →
      splitOnFuel p ps fuel₁ s = splitOnFuel p ps fuel₂ s := by
  intro fuel₁
  induction fuel₁ with
  | zero =>
    intro s fuel₂ h₁ _
    have : s = [] := List.length_eq_zero.mp (Nat.le_zero.mp h₁)
    subst this
    cases fuel₂ <;> rfl
  | succ f ih =>
    intro s fuel₂ h₁ h₂
    cases s with
    | nil => cases fuel₂ <;> rfl
    | cons c rest =>
      cases fuel₂ with
      | zero => simp at h₂
      | succ f₂ =>
        simp only [splitOnFuel]
        have hr : rest.length ≤ f := by simpa using h₁
        have hr₂ : rest.length ≤ f₂ := by simpa using h₂
        by_cases hm : leadMatch (p :: ps) (c :: rest) = true
        · simp only [hm, if_true]
          have hd : (rest.drop ps.length).length ≤ rest.length := by
            simp [List.length_drop]
          exact congrArg _ (ih _ f₂ (le_trans hd hr) (le_trans hd hr₂))
        · simp only [hm, if_false, Bool.not_eq_true] at *
          simp only [hm, Bool.false_eq_true, if_false]
          exact congrArg _ (ih _ f₂ hr hr₂)

theorem splitOnC_nil (p : Char) (ps : List Char) : splitOnC p ps [] = [[]] := rfl

theorem splitOnC_cons_match (p : Char) (ps : List Char) (c : Char) (rest : List Char)
    (h : leadMatch (p :: ps) (c :: rest) = true) :
    splitOnC p ps (c :: rest) = [] :: splitOnC p ps (rest.drop ps.length) := by
  simp only [splitOnC, List.length_cons, splitOnFuel, h, if_true]
  refine congrArg _ (splitOnFuel_fuel_irrel p ps _ _ _ ?_ le_rfl)
  simp [List.length_drop]

theorem splitOnC_cons_miss (p : Char) (ps : List Char) (c : Char) (rest : List Char)
    (h : leadMatch (p :: ps) (c :: rest) = false) :
    splitOnC p ps (c :: rest) = consHead c (splitOnC p ps rest) := by
  simp only [splitOnC, List.length_cons, splitOnFuel, h, Bool.false_eq_true, if_false]

/-- Splitting a list that starts with the separator. -/
theorem splitOnC_sep_append (p : Char) (ps t : List Char) :
    splitOnC p ps ((p :: ps) ++ t) = [] :: splitOnC p ps t := by
  have h : leadMatch (p :: ps) ((p :: ps) ++ t) = true :=
    (leadMatch_iff _ _).mpr ⟨t, rfl⟩
  rw [List.cons_append, splitOnC_cons_match p ps p (ps ++ t) (by simpa using h)]
  simp [List.drop_left]

/-- Splitting a list in which the separator does not occur. -/
theorem splitOnC_no_occurrence (p : Char) (ps : List Char) :
    ∀ s : List Char, occursIn (p :: ps) s = false → splitOnC p ps s = [s] := by
  intro s
  induction s with
  | nil => intro _; rfl
  | cons c cs ih =>
    intro h
    simp only [occursIn, Bool.or_eq_false_iff] at h
    rw [splitOnC_cons_miss p ps c cs h.1, ih h.2]
    rfl

/-! ## Separator-overlap side conditions

The two wire-format tokens of `templates.ts` (`<<FIELD_SEP>>` and
`<<COMMIT_END_MARK>>`) neither overlap themselves nor each other.  The two
boolean checks below capture exactly the finitely many shift comparisons
needed, and are discharged by `decide` for the concrete tokens. -/

/-- No proper suffix-shift of `sep` matches a prefix of `sep` again:
`sep` cannot overlap itself. -/
def selfOverlapFree (sep : List Char) : Bool :=
  (List.range sep.length).all fun m => decide (m = 0) || !(leadMatch (sep.drop m) sep)

/-- Checks that `T` cannot occur across a junction `x ++ S ++ y` without occurring
entirely inside `x`, inside `y`, or containing/being contained in `S`. -/
def noStraddle (T S : List Char) : Bool :=
  !(occursIn T S) && !(occursIn S T) &&
    ((List.range T.length).all fun m => decide (m = 0) || !(leadMatch (T.drop m) S)) &&
    ((List.range S.length).all fun k => !(leadMatch (S.drop k) T))

theorem selfOverlapFree_spec {sep : List Char} (h : selfOverlapFree sep = true) :
    ∀ m, 1 ≤ m → m < sep.length → leadMatch (sep.drop m) sep = false := by
  intro m h1 h2
  have := List.all_eq_true.mp h m (List.mem_range.mpr h2)
  simp only [Bool.or_eq_true, decide_eq_true_eq, Bool.not_eq_true'] at this
  rcases this with h0 | h0
  · omega
  · exact h0

/-- First occurrence step used by the split-over-render lemma: if the
separator does not occur in the nonempty list `a`, it does not match at the
very start of `a ++ sep ++ t`. -/
theorem leadMatch_sep_junction_false (p : Char) (ps : List Char)
    (hso : selfOverlapFree (p :: ps) = true) (a t : List Char) (ha : a ≠ [])
    (hocc : occursIn (p :: ps) a = false) :
    leadMatch (p :: ps) (a ++ (p :: ps) ++ t) = false := by
  by_contra hcon
  rw [Bool.not_eq_false, leadMatch_iff] at hcon
  obtain ⟨r, hr⟩ := hcon
  rw [occursIn_eq_false_iff] at hocc
  rw [List.append_assoc] at hr
  rcases List.append_eq_append_iff.mp hr with ⟨w, hw1, hw2⟩ | ⟨w, hw1, hw2⟩
  · -- p :: ps = a ++ w
    cases w with
    | nil => exact hocc ⟨[], [], by simpa using hw1.symm⟩
    | cons w0 ws =>
      have hlen : ps.length + 1 = a.length + (ws.length + 1) := by
        have := congrArg List.length hw1
        simpa using this
      have hlen1 : 1 ≤ a.length := by
        cases a with
        | nil => exact absurd rfl ha
        | cons _ _ => simp
      -- (p :: ps) ++ t = (w0 :: ws) ++ r
      rcases List.append_eq_append_iff.mp hw2 with ⟨v, hv1, _⟩ | ⟨v, hv1, _⟩
      · -- w0 :: ws = (p :: ps) ++ v : impossible by lengths
        have := congrArg List.length hv1
        simp only [List.length_cons, List.length_append] at this
        omega
      · -- p :: ps = (w0 :: ws) ++ v : a shifted tail of the separator
        -- matches a prefix of the separator, contradicting selfOverlapFree
        have hdrop : (p :: ps).drop a.length = w0 :: ws := by
          rw [hw1, List.drop_left]
        have hlead : leadMatch ((p :: ps).drop a.length) (p :: ps) = true := by
          rw [hdrop, leadMatch_iff]
          exact ⟨v, hv1⟩
        have hfalse := selfOverlapFree_spec hso a.length hlen1 (by simp; omega)
        rw [hfalse] at hlead
        exact absurd hlead (by simp)
  · -- a = (p :: ps) ++ w : the separator occurs at the start of a
    exact hocc ⟨[], w, by simpa using hw1⟩

/-- Main split-over-render lemma: splitting `a ++ sep ++ t` (with no
occurrence of `sep` in `a` and a non-self-overlapping `sep`) yields `a`
followed by the pieces of `t`. -/
theorem splitOnC_append_sep (p : Char) (ps : List Char)
    (hso : selfOverlapFree (p :: ps) = true) :
    ∀ a t : List Char, occursIn (p :: ps) a = false →
      splitOnC p ps (a ++ (p :: ps) ++ t) = a :: splitOnC p ps t := by
  intro a
  induction a with
  | nil =>
    intro t _
    simpa using splitOnC_sep_append p ps t
  | cons c cs ih =>
    intro t hocc
    have hoccs : occursIn (p :: ps) cs = false := by
      simp only [occursIn, Bool.or_eq_false_iff] at hocc
      exact hocc.2
    have hmiss :
        leadMatch (p :: ps) ((c :: cs) ++ (p :: ps) ++ t) = false :=
      leadMatch_sep_junction_false p ps hso (c :: cs) t (by simp) hocc
    have hshape : (c :: cs) ++ (p :: ps) ++ t = c :: (cs ++ (p :: ps) ++ t) := by
      simp
    rw [hshape]
    rw [hshape] at hmiss
    rw [splitOnC_cons_miss p ps _ _ hmiss, ih t hoccs]
    rfl

/-! ## Joining and splitting whole records -/

/-- JS `Array.prototype.join('')`. -/
def joinL : List (List Char) → List Char
  | [] => []
  | x :: xs => x ++ joinL xs

/-- JS `Array.prototype.join(sep)`. -/
def interL (sep : List Char) : List (List Char) → List Char
  | [] => []
  | [x] => x
  | x :: y :: ys => x ++ sep ++ interL sep (y :: ys)

/-- Splitting the `sep`-intercalation of `sep`-free pieces gives back the
pieces. -/
theorem splitOnC_interL (p : Char) (ps : List Char)
    (hso : selfOverlapFree (p :: ps) = true) :
    ∀ pieces : List (List Char), pieces ≠ [] →
      (∀ x ∈ pieces, occursIn (p :: ps) x = false) →
      splitOnC p ps (interL (p :: ps) pieces) = pieces := by
  intro pieces
  induction pieces with
  | nil => intro h _; exact absurd rfl h
  | cons x xs ih =>
    intro _ hfree
    cases xs with
    | nil =>
      exact splitOnC_no_occurrence p ps x (hfree x (by simp))
    | cons y ys =>
      have hx : occursIn (p :: ps) x = false := hfree x (by simp)
      have hrest : ∀ z ∈ y :: ys, occursIn (p :: ps) z = false := by
        intro z hz
        exact hfree z (by simp [hz])
      rw [interL, splitOnC_append_sep p ps hso x _ hx, ih (by simp) hrest]

/-- Splitting the concatenation of `sep`-terminated, `sep`-free chunks
gives back the chunks followed by one empty trailing piece (the JS
behaviour of `split` on text ending with the separator). -/
theorem splitOnC_joinL_terminated (p : Char) (ps : List Char)
    (hso : selfOverlapFree (p :: ps) = true) :
    ∀ chunks : List (List Char),
      (∀ x ∈ chunks, occursIn (p :: ps) x = false) →
      splitOnC p ps (joinL (chunks.map (· ++ (p :: ps)))) = chunks ++ [[]] := by
  intro chunks
  induction chunks with
  | nil => intro _; rfl
  | cons x xs ih =>
    intro hfree
    have hx : occursIn (p :: ps) x = false := hfree x (by simp)
    have hshape :
        joinL (((x :: xs).map (· ++ (p :: ps)))) =
          x ++ (p :: ps) ++ joinL (xs.map (· ++ (p :: ps))) := by
      simp [joinL]
    rw [hshape, splitOnC_append_sep p ps hso x _ hx,
      ih (fun z hz => hfree z (by simp [hz]))]
    rfl

theorem noStraddle_spec {T S : List Char} (h : noStraddle T S = true) :
    occursIn T S = false ∧ occursIn S T = false ∧
      (∀ m, 1 ≤ m → m < T.length → leadMatch (T.drop m) S = false) ∧
      (∀ k, k < S.length → leadMatch (S.drop k) T = false) := by
  simp only [noStraddle, Bool.and_eq_true, List.all_eq_true, List.mem_range,
    Bool.or_eq_true, decide_eq_true_eq, Bool.not_eq_true'] at h
  obtain ⟨⟨⟨h1, h2⟩, h3⟩, h4⟩ := h
  refine ⟨h1, h2, ?_, ?_⟩
  · intro m hm1 hm2
    rcases h3 m hm2 with h0 | h0
    · omega
    · exact h0
  · intro k hk
    exact h4 k hk

/-- The token `T` does not occur across a junction `x ++ S ++ y` when it
occurs in neither side and the `noStraddle` check holds for `T`, `S`. -/
theorem occursIn_junction_false (T S x y : List Char)
    (hns : noStraddle T S = true)
    (hx : occursIn T x = false) (hy : occursIn T y = false) :
    occursIn T (x ++ S ++ y) = false := by
  obtain ⟨h1, h2, h3, h4⟩ := noStraddle_spec hns
  rw [occursIn_eq_false_iff] at hx hy ⊢
  rw [occursIn_eq_false_iff] at h1 h2
  rintro ⟨a, b, hr⟩
  rw [List.append_assoc, List.append_assoc] at hr
  rcases List.append_eq_append_iff.mp hr with ⟨w, hw1, hw2⟩ | ⟨w, hw1, hw2⟩
  · -- a = x ++ w and S ++ y = w ++ (T ++ b)
    rcases List.append_eq_append_iff.mp hw2 with ⟨v, hv1, hv2⟩ | ⟨v, hv1, hv2⟩
    · -- w = S ++ v and y = v ++ (T ++ b)
      exact hy ⟨v, b, by simpa [List.append_assoc] using hv2⟩
    · -- S = w ++ v and T ++ b = v ++ y
      cases v with
      | nil =>
        exact hy ⟨[], b, by simpa using hv2.symm⟩
      | cons v0 vs =>
        rcases List.append_eq_append_iff.mp hv2 with ⟨u, hu1, hu2⟩ | ⟨u, hu1, hu2⟩
        · -- v0 :: vs = T ++ u
          exact h1 ⟨w, u, by rw [hv1, hu1]; simp [List.append_assoc]⟩
        · -- T = (v0 :: vs) ++ u and y = u ++ b
          have hk : w.length < S.length := by
            have := congrArg List.length hv1
            simp only [List.length_append, List.length_cons] at this
            omega
          have hdrop : S.drop w.length = v0 :: vs := by
            rw [hv1, List.drop_left]
          have hlead : leadMatch (S.drop w.length) T = true := by
            rw [hdrop, leadMatch_iff]
            exact ⟨u, hu1⟩
          rw [h4 w.length hk] at hlead
          exact absurd hlead (by simp)
  · -- x = a ++ w and T ++ b = w ++ (S ++ y)
    cases w with
    | nil =>
      simp only [List.nil_append] at hw2
      rcases List.append_eq_append_iff.mp hw2 with ⟨u, hu1, hu2⟩ | ⟨u, hu1, hu2⟩
      · exact h1 ⟨[], u, by simpa using hu1⟩
      · exact h2 ⟨[], u, by simpa using hu1⟩
    | cons w0 ws =>
      rcases List.append_eq_append_iff.mp hw2 with ⟨v, hv1, hv2⟩ | ⟨v, hv1, hv2⟩
      · -- w0 :: ws = T ++ v
        exact hx ⟨a, v, by rw [hw1, hv1]; simp [List.append_assoc]⟩
      · -- T = (w0 :: ws) ++ v and S ++ y = v ++ b
        cases v with
        | nil =>
          exact hx ⟨a, [], by simp only [List.append_nil] at hv1; rw [hw1, hv1]; simp⟩
        | cons v0 vs =>
          rcases List.append_eq_append_iff.mp hv2 with ⟨u, hu1, hu2⟩ | ⟨u, hu1, hu2⟩
          · -- v0 :: vs = S ++ u
            exact h2 ⟨w0 :: ws, u, by rw [hv1, hu1]; simp [List.append_assoc]⟩
          · -- S = (v0 :: vs) ++ u and y = u ++ b
            have hm1 : 1 ≤ (w0 :: ws).length := by simp
            have hm2 : (w0 :: ws).length < T.length := by
              have := congrArg List.length hv1
              simp only [List.length_append, List.length_cons] at this
              simp only [List.length_cons]
              omega
            have hdrop : T.drop (w0 :: ws).length = v0 :: vs := by
              rw [hv1, List.drop_left]
            have hlead : leadMatch (T.drop (w0 :: ws).length) S = true := by
              rw [hdrop, leadMatch_iff]
              exact ⟨u, hu1⟩
            rw [h3 (w0 :: ws).length hm1 hm2] at hlead
            exact absurd hlead (by simp)

/-- A token `T` that occurs in no piece and cannot straddle the separator
`S` does not occur in the `S`-intercalation of the pieces. -/
theorem occursIn_interL_false (T S : List Char) (hT : T ≠ [])
    (hns : noStraddle T S = true) :
    ∀ pieces : List (List Char), (∀ x ∈ pieces, occursIn T x = false) →
      occursIn T (interL S pieces) = false := by
  intro pieces
  induction pieces with
  | nil =>
    intro _
    cases T with
    | nil => exact absurd rfl hT
    | cons t ts => rfl
  | cons x xs ih =>
    intro hfree
    cases xs with
    | nil => exact hfree x (by simp)
    | cons y ys =>
      rw [interL]
      exact occursIn_junction_false T S x _ hns (hfree x (by simp))
        (ih fun z hz => hfree z (by simp [hz]))

/-! ## JS `String.prototype.trim` over `List Char` -/

/-- The whitespace characters relevant to the parsed git output (JS `trim`
also strips other Unicode whitespace, which cannot appear in the ASCII
tokens and separators this development quantifies over). -/
def isWSChar (c : Char) : Bool :=
  c == ' ' || c == '\t' || c == '\n' || c == '\r'

def trimStartL (s : List Char) : List Char := s.dropWhile isWSChar

def trimEndL (s : List Char) : List Char := (s.reverse.dropWhile isWSChar).reverse

/-- JS `s.trim()`. -/
def trimL (s : List Char) : List Char := trimEndL (trimStartL s)

theorem dropWhile_append_keep (p : Char → Bool) (b : List Char)
    (hb : List.dropWhile p b = b) :
    ∀ a : List Char, List.dropWhile p (a ++ b) = List.dropWhile p a ++ b := by
  intro a
  induction a with
  | nil => simpa using hb
  | cons c a' ih =>
    by_cases hc : p c = true
    · simp only [List.cons_append, List.dropWhile_cons, hc, if_true, ih]
    · simp only [Bool.not_eq_true] at hc
      simp [List.dropWhile_cons, hc]

theorem trimStartL_append_cons (x : List Char) (c : Char) (r : List Char)
    (hc : isWSChar c = false) :
    trimStartL (x ++ c :: r) = trimStartL x ++ c :: r := by
  unfold trimStartL
  exact dropWhile_append_keep isWSChar (c :: r) (by simp [List.dropWhile_cons, hc]) x

theorem trimEndL_append_snoc (x : List Char) (c : Char) (r : List Char)
    (hc : isWSChar c = false) :
    trimEndL ((x ++ [c]) ++ r) = (x ++ [c]) ++ trimEndL r := by
  unfold trimEndL
  have h1 : ((x ++ [c]) ++ r).reverse = r.reverse ++ (c :: x.reverse) := by
    simp
  rw [h1, dropWhile_append_keep isWSChar (c :: x.reverse)
    (by simp [List.dropWhile_cons, hc]) r.reverse]
  simp

theorem dropWhile_idem (p : Char → Bool) :
    ∀ l : List Char, List.dropWhile p (List.dropWhile p l) = List.dropWhile p l := by
  intro l
  induction l with
  | nil => rfl
  | cons c l' ih =>
    by_cases hc : p c = true
    · simp [List.dropWhile_cons, hc, ih]
    · simp only [Bool.not_eq_true] at hc
      simp [List.dropWhile_cons, hc]

theorem trimL_trimStartL (s : List Char) : trimL (trimStartL s) = trimL s := by
  unfold trimL trimStartL
  rw [dropWhile_idem]

theorem occursIn_trimStartL_false (pat s : List Char)
    (h : occursIn pat s = false) : occursIn pat (trimStartL s) = false := by
  have hdecomp : s = s.takeWhile isWSChar ++ trimStartL s ++ [] := by
    simp [trimStartL, List.takeWhile_append_dropWhile]
  rw [hdecomp] at h
  exact occursIn_false_of_middle pat _ _ _ h

theorem occursIn_trimEndL_false (pat s : List Char)
    (h : occursIn pat s = false) : occursIn pat (trimEndL s) = false := by
  have hdecomp : s = [] ++ trimEndL s ++ (s.reverse.takeWhile isWSChar).reverse := by
    have h2 := congrArg List.reverse (List.takeWhile_append_dropWhile (p := isWSChar)
      (l := s.reverse))
    simp only [List.reverse_append, List.reverse_reverse] at h2
    unfold trimEndL
    rw [List.nil_append]
    exact h2.symm
  rw [hdecomp] at h
  exact occursIn_false_of_middle pat _ _ _ h

theorem occursIn_trimL_false (pat s : List Char)
    (h : occursIn pat s = false) : occursIn pat (trimL s) = false :=
  occursIn_trimEndL_false pat _ (occursIn_trimStartL_false pat s h)

/-! ## The wire-format tokens of `templates.ts` -/

/-- The token `FIELD_SEPARATOR` from `templates.ts` (written in head-cons form so
that the splitter's pattern matching reduces definitionally). -/
def fieldSepL : List Char := '<' :: "<FIELD_SEP>>".toList

/-- The token `COMMIT_END_MARK` from `templates.ts`. -/
def endMarkL : List Char := '<' :: "<COMMIT_END_MARK>>".toList

theorem fieldSepL_eq : fieldSepL = "<<FIELD_SEP>>".toList := by decide

theorem endMarkL_eq : endMarkL = "<<COMMIT_END_MARK>>".toList := by decide

theorem fieldSepL_selfOverlapFree : selfOverlapFree fieldSepL = true := by decide

theorem endMarkL_selfOverlapFree : selfOverlapFree endMarkL = true := by decide

theorem endMark_noStraddle_fieldSep : noStraddle endMarkL fieldSepL = true := by decide

/-- Trimming a rendered record: the whitespace stripping stops at the
first/last separator token, so only the outermost fields are affected. -/
theorem trimL_fieldSep_decomp (h q b : List Char) :
    trimL (h ++ fieldSepL ++ (q ++ (fieldSepL ++ b)))
      = trimStartL h ++ fieldSepL ++ (q ++ (fieldSepL ++ trimEndL b)) := by
  have hlt : isWSChar '<' = false := by decide
  have hgt : isWSChar '>' = false := by decide
  have hsnoc : fieldSepL = "<<FIELD_SEP".toList ++ ['>', '>'] := by decide
  unfold trimL
  have e1 : trimStartL (h ++ fieldSepL ++ (q ++ (fieldSepL ++ b)))
      = trimStartL h ++ fieldSepL ++ (q ++ (fieldSepL ++ b)) := by
    have : h ++ fieldSepL ++ (q ++ (fieldSepL ++ b))
        = h ++ '<' :: ("<FIELD_SEP>>".toList ++ (q ++ (fieldSepL ++ b))) := by
      simp [fieldSepL]
    rw [this, trimStartL_append_cons h '<' _ hlt]
    simp [fieldSepL]
  rw [e1]
  have e2 : trimStartL h ++ fieldSepL ++ (q ++ (fieldSepL ++ b))
      = ((trimStartL h ++ fieldSepL ++ q ++ "<<FIELD_SEP".toList ++ ['>']) ++ ['>']) ++ b := by
    rw [hsnoc]
    simp [List.append_assoc]
  rw [e2, trimEndL_append_snoc _ '>' b hgt]
  rw [hsnoc]
  simp [List.append_assoc]

/-! ## Data model: `CommitInfo` (from `isl/src/types` as used in
`templates.ts`) -/

inductive CommitPhase where
  | publicPhase
  | draft
deriving DecidableEq, Repr

structure StableCommitMetadata where
  value : List Char
  description : List Char
deriving DecidableEq, Repr

/-- The fields of a parsed commit, mirroring the object literal pushed by
`parseCommitInfoOutput` in `templates.ts` (the `date` field keeps the raw
ISO string handed to `new Date`; fields that the parser always sets to a
constant are kept with those constants). -/
structure CommitInfo where
  hash : List Char
  title : List Char
  author : List Char
  date : List Char
  parents : List (List Char)
  grandparents : List (List Char)
  phase : CommitPhase
  bookmarks : List (List Char)
  remoteBookmarks : List (List Char)
  isDot : Bool
  filePathsSample : List (List Char)
  totalFileCount : Nat
  description : List Char
  diffId : Option (List Char)
  isFollower : Bool
  stableCommitMetadata : Option (List StableCommitMetadata)
  maxCommonPathPrefix : List Char
deriving DecidableEq, Repr

/-- JS `s.endsWith(pat)`. -/
def endsWithL (pat s : List Char) : Bool := leadMatch pat.reverse s.reverse

def headArrowPrefix : List Char := "HEAD -> ".toList

/-- One step of the ref-decoration loop in `parseRefs` (`templates.ts`
lines 84-106), processing the already-trimmed comma-separated tokens in
order and returning `(bookmarks, remoteBookmarks)`.  The regex
`^HEAD -> (.+)$` is modelled as: the literal prefix followed by a nonempty
remainder with no line terminator. -/
def classifyRefs : List (List Char) → List (List Char) × List (List Char)
  | [] => ([], [])
  | ref :: rest =>
    let acc := classifyRefs rest
    if ref = [] then acc
    else if ref = "HEAD".toList then acc
    else if leadMatch headArrowPrefix ref && decide (8 < ref.length)
        && !((ref.drop 8).contains '\n') && !((ref.drop 8).contains '\r') then
      (ref.drop 8 :: acc.1, acc.2)
    else if ref.contains '/' then
      if endsWithL "/HEAD".toList ref then acc else (acc.1, ref :: acc.2)
    else
      (ref :: acc.1, acc.2)

/-- Definition of `parseRefs` from `templates.ts`. -/
def parseRefs (refsStr : List Char) : List (List Char) × List (List Char) :=
  if trimL refsStr = [] then ([], [])
  else classifyRefs ((splitOnL [','] refsStr).map trimL)

/-- The parent-list computation of `parseCommitInfoOutput`
(`parentsStr ? parentsStr.split(' ').filter(p => p.length > 0) : []`). -/
def parseParents (parentsStr : List Char) : List (List Char) :=
  if parentsStr = [] then []
  else (splitOnL [' '] parentsStr).filter fun p => 0 < p.length

/-- The description computation of `parseCommitInfoOutput`: the body minus
its first line. -/
def descriptionOf (body : List Char) : List Char :=
  let bodyLines := splitOnL ['\n'] body
  if 1 < bodyLines.length then trimL (interL ['\n'] (bodyLines.drop 1)) else []

/-- Building one `CommitInfo` from the split fields, exactly as the loop
body of `parseCommitInfoOutput` does once the field-count check passed. -/
def buildCommit (headHash : List Char) (pub : Option (List (List Char)))
    (parts : List (List Char)) : CommitInfo :=
  let hash := trimL (parts.getD 0 [])
  let body := trimL (interL fieldSepL (parts.drop 6))
  let refsPair := parseRefs (parts.getD 5 [])
  { hash := hash
    title := parts.getD 1 []
    author := parts.getD 2 []
    date := parts.getD 3 []
    parents := parseParents (trimL (parts.getD 4 []))
    grandparents := []
    phase :=
      match pub with
      | none => CommitPhase.draft
      | some l => if hash ∈ l then CommitPhase.publicPhase else CommitPhase.draft
    bookmarks := refsPair.1
    remoteBookmarks := refsPair.2
    isDot := decide (hash = headHash)
    filePathsSample := []
    totalFileCount := 0
    description := descriptionOf body
    diffId := none
    isFollower := false
    stableCommitMetadata := none
    maxCommonPathPrefix := [] }

/-- One iteration of the chunk loop of `parseCommitInfoOutput`: `none`
models `continue` (empty chunk, or fewer than the 7 required fields). -/
def parseChunk (headHash : List Char) (pub : Option (List (List Char)))
    (chunk : List Char) : Option CommitInfo :=
  let trimmed := trimL chunk
  if trimmed = [] then none
  else
    let parts := splitOnL fieldSepL trimmed
    if parts.length < 7 then none
    else some (buildCommit headHash pub parts)

/-- Definition of `parseCommitInfoOutput` from `templates.ts` (the logger argument only
logs and the review-system argument is unused in the source, so both are
dropped; the body's `try`/`catch` can never fire in this pure model since
`new Date` does not throw). -/
def parseCommitInfoOutput (output headHash : List Char)
    (pub : Option (List (List Char))) : List CommitInfo :=
  (splitOnL endMarkL output).filterMap (parseChunk headHash pub)

/-! ## Well-formed record batches (claim C1) -/

/-- The seven wire-format fields of one commit record, in the order fixed
by `GIT_LOG_FIELD_NAMES` / `getMainFetchFormat` (the `parents` and `refs`
fields hold the still-unsplit space- and comma-separated strings). -/
structure GitLogRecord where
  hash : List Char
  title : List Char
  author : List Char
  date : List Char
  parents : List Char
  refs : List Char
  body : List Char
deriving DecidableEq, Repr

def recordFields (r : GitLogRecord) : List (List Char) :=
  [r.hash, r.title, r.author, r.date, r.parents, r.refs, r.body]

/-- The raw text of one record as produced by the
`getMainFetchFormat` format string: the fields joined by
`FIELD_SEPARATOR`. -/
def renderRecord (r : GitLogRecord) : List Char :=
  interL fieldSepL (recordFields r)

/-- Neither wire token occurs in the field content. -/
def tokenFree (s : List Char) : Prop :=
  occursIn fieldSepL s = false ∧ occursIn endMarkL s = false

/-- Well-formedness of one record, as stated by the claim: the
field-separator and record-terminator tokens do not occur in field
content. -/
def RecordWF (r : GitLogRecord) : Prop := ∀ f ∈ recordFields r, tokenFree f

instance : DecidablePred tokenFree := fun _ =>
  instDecidableAnd

instance : DecidablePred RecordWF := fun r =>
  List.decidableBAll _ (recordFields r)

theorem occursIn_endMark_renderRecord (r : GitLogRecord) (hwf : RecordWF r) :
    occursIn endMarkL (renderRecord r) = false :=
  occursIn_interL_false endMarkL fieldSepL (by simp [endMarkL])
    endMark_noStraddle_fieldSep (recordFields r) fun f hf => (hwf f hf).2

/-- Parsing one rendered well-formed record: the chunk loop produces
exactly one commit, whose hash is the trimmed hash field. -/
theorem parseChunk_renderRecord (headHash : List Char)
    (pub : Option (List (List Char))) (r : GitLogRecord) (hwf : RecordWF r) :
    parseChunk headHash pub (renderRecord r) =
      some (buildCommit headHash pub
        [trimStartL r.hash, r.title, r.author, r.date, r.parents, r.refs,
          trimEndL r.body]) := by
  have hshape : renderRecord r
      = r.hash ++ fieldSepL ++
          ((interL fieldSepL [r.title, r.author, r.date, r.parents, r.refs]) ++
            (fieldSepL ++ r.body)) := by
    simp [renderRecord, recordFields, interL, List.append_assoc]
  have htrim1 : trimL (renderRecord r)
      = trimStartL r.hash ++ fieldSepL ++
          ((interL fieldSepL [r.title, r.author, r.date, r.parents, r.refs]) ++
            (fieldSepL ++ trimEndL r.body)) := by
    rw [hshape, trimL_fieldSep_decomp]
  have htrim : trimL (renderRecord r)
      = interL fieldSepL [trimStartL r.hash, r.title, r.author, r.date,
          r.parents, r.refs, trimEndL r.body] := by
    rw [htrim1]
    simp [interL, List.append_assoc]
  have hfree : ∀ x ∈ [trimStartL r.hash, r.title, r.author, r.date,
      r.parents, r.refs, trimEndL r.body], occursIn fieldSepL x = false := by
    intro x hx
    simp only [List.mem_cons, List.not_mem_nil, or_false] at hx
    have hh := hwf r.hash (by simp [recordFields])
    have hb := hwf r.body (by simp [recordFields])
    rcases hx with rfl | rfl | rfl | rfl | rfl | rfl | rfl
    · exact occursIn_trimStartL_false _ _ hh.1
    · exact (hwf r.title (by simp [recordFields])).1
    · exact (hwf r.author (by simp [recordFields])).1
    · exact (hwf r.date (by simp [recordFields])).1
    · exact (hwf r.parents (by simp [recordFields])).1
    · exact (hwf r.refs (by simp [recordFields])).1
    · exact occursIn_trimEndL_false _ _ hb.1
  have hsplit : splitOnL fieldSepL (trimL (renderRecord r))
      = [trimStartL r.hash, r.title, r.author, r.date, r.parents, r.refs,
          trimEndL r.body] := by
    rw [htrim]
    show splitOnC '<' "<FIELD_SEP>>".toList _ = _
    have : fieldSepL = '<' :: "<FIELD_SEP>>".toList := rfl
    rw [this] at hfree ⊢
    exact splitOnC_interL '<' "<FIELD_SEP>>".toList fieldSepL_selfOverlapFree _
      (by simp) hfree
  have hne : trimL (renderRecord r) ≠ [] := by
    rw [htrim1]
    intro hemp
    simp only [List.append_eq_nil, fieldSepL] at hemp
    exact (List.cons_ne_nil _ _) hemp.1.2
  unfold parseChunk
  rw [if_neg hne, hsplit]
  rfl

/-- Parsing a malformed chunk (fewer than 7 fields after trimming): the
chunk loop skips it. -/
theorem parseChunk_malformed (headHash : List Char)
    (pub : Option (List (List Char))) (s : List Char)
    (hlt : (splitOnL fieldSepL (trimL s)).length < 7) :
    parseChunk headHash pub s = none := by
  unfold parseChunk
  by_cases hnil : trimL s = []
  · rw [if_pos hnil]
  · rw [if_neg hnil, if_pos hlt]

/-- The raw batch text: each chunk followed by `COMMIT_END_MARK`, as
produced by the `getMainFetchFormat` log format. -/
def renderBatch (chunks : List (List Char)) : List Char :=
  joinL (chunks.map (· ++ endMarkL))

/-- A batch element: either a well-formable record or an arbitrary
malformed chunk. -/
inductive BatchChunk where
  | good (r : GitLogRecord)
  | bad (s : List Char)
deriving DecidableEq, Repr

def chunkText : BatchChunk → List Char
  | .good r => renderRecord r
  | .bad s => s

/-- Well-formedness of a batch element: a `good` chunk is a well-formed
record; a `bad` chunk is any record-terminator-free text with fewer than
the 7 required fields. -/
def ChunkWF : BatchChunk → Prop
  | .good r => RecordWF r
  | .bad s => occursIn endMarkL s = false ∧
      (splitOnL fieldSepL (trimL s)).length < 7

instance : DecidablePred ChunkWF := fun c => by
  cases c with
  | good r => exact inferInstanceAs (Decidable (RecordWF r))
  | bad s => exact instDecidableAnd

def goodRecords (chunks : List BatchChunk) : List GitLogRecord :=
  chunks.filterMap fun c =>
    match c with
    | .good r => some r
    | .bad _ => none

theorem parseChunk_nil (headHash : List Char) (pub : Option (List (List Char))) :
    parseChunk headHash pub [] = none := rfl

/-- Splitting a whole rendered batch on `COMMIT_END_MARK` recovers the
chunks (plus the empty trailing piece JS `split` produces). -/
theorem splitOnL_renderBatch (chunks : List (List Char))
    (hfree : ∀ x ∈ chunks, occursIn endMarkL x = false) :
    splitOnL endMarkL (renderBatch chunks) = chunks ++ [[]] := by
  show splitOnC '<' "<COMMIT_END_MARK>>".toList _ = _
  have he : endMarkL = '<' :: "<COMMIT_END_MARK>>".toList := rfl
  rw [he] at hfree
  have := splitOnC_joinL_terminated '<' "<COMMIT_END_MARK>>".toList
    endMarkL_selfOverlapFree chunks hfree
  rw [← this]
  rfl

/-- Parsing a rendered batch of well-formed and malformed chunks: the
well-formed ones produce exactly one commit each (with the trimmed hash
field as hash), the malformed ones are skipped, and order is kept. -/
theorem parseCommitInfoOutput_renderBatch (chunks : List BatchChunk)
    (headHash : List Char) (pub : Option (List (List Char)))
    (hwf : ∀ c ∈ chunks, ChunkWF c) :
    (parseCommitInfoOutput (renderBatch (chunks.map chunkText)) headHash pub).map
        (fun c => c.hash)
      = (goodRecords chunks).map (fun r => trimL r.hash) := by
  unfold parseCommitInfoOutput
  rw [splitOnL_renderBatch (chunks.map chunkText) ?hfree]
  case hfree =>
    intro x hx
    rcases List.mem_map.mp hx with ⟨c, hc, rfl⟩
    cases c with
    | good r => exact occursIn_endMark_renderRecord r (hwf _ hc)
    | bad s => exact (hwf _ hc).1
  rw [List.filterMap_append]
  simp only [List.filterMap_cons, parseChunk_nil, List.filterMap_nil,
    List.append_nil]
  induction chunks with
  | nil => rfl
  | cons c cs ih =>
    have hc := hwf c (by simp)
    have hcs : ∀ x ∈ cs, ChunkWF x := fun x hx => hwf x (by simp [hx])
    cases c with
    | good r =>
      simp only [List.map_cons, List.filterMap_cons, chunkText,
        parseChunk_renderRecord headHash pub r hc, goodRecords]
      simp only [goodRecords] at ih
      rw [ih hcs]
      congr 1
      exact trimL_trimStartL r.hash
    | bad s =>
      simp only [List.map_cons, List.filterMap_cons, chunkText,
        parseChunk_malformed headHash pub s hc.2, goodRecords]
      simp only [goodRecords] at ih
      exact ih hcs

/-! ## Claim C1 -/

/-- Two distinct, individually well-formed records carrying the same hash
field. -/
def dupRecordA : GitLogRecord :=
  ⟨"aaa".toList, "first title".toList, "Alice <a@example.com>".toList,
    "2024-01-01T00:00:00Z".toList, "".toList, "".toList, "first title".toList⟩

def dupRecordB : GitLogRecord :=
  ⟨"aaa".toList, "second title".toList, "Bob <b@example.com>".toList,
    "2024-01-02T00:00:00Z".toList, "".toList, "".toList, "second title".toList⟩

def dupBatch : List BatchChunk := [.good dupRecordA, .good dupRecordB]

/-- C1, counterexample to the claim as stated: a batch of two well-formed
records (no token occurs in any field, 7 fields each) whose hash fields
coincide parses to two records, but their hashes are NOT unique —
`parseCommitInfoOutput` performs no deduplication, so "each with a unique
hash" fails for this well-formed batch. -/
theorem claim_C1_counterexample :
    (∀ c ∈ dupBatch, ChunkWF c) ∧
      (parseCommitInfoOutput (renderBatch (dupBatch.map chunkText))
          "bbb".toList none).length = 2 ∧
      ¬ ((parseCommitInfoOutput (renderBatch (dupBatch.map chunkText))
          "bbb".toList none).map (fun c => c.hash)).Nodup := by
  refine ⟨by decide, by decide, by decide⟩

/-- C1 (amended): for a well-formed batch (no wire token in any field,
7 fields per record) interleaved with malformed chunks, the parser returns
exactly one record per well-formed input record, in order, with the
trimmed hash field as hash — malformed chunks are skipped without aborting
the batch — and the output hashes are unique WHENEVER the input records'
(trimmed) hash fields are pairwise distinct. -/
theorem claim_C1_theorem (chunks : List BatchChunk) (headHash : List Char)
    (pub : Option (List (List Char))) (hwf : ∀ c ∈ chunks, ChunkWF c) :
    (parseCommitInfoOutput (renderBatch (chunks.map chunkText)) headHash pub).map
          (fun c => c.hash)
        = (goodRecords chunks).map (fun r => trimL r.hash)
      ∧ (parseCommitInfoOutput (renderBatch (chunks.map chunkText)) headHash
          pub).length = (goodRecords chunks).length
      ∧ (((goodRecords chunks).map (fun r => trimL r.hash)).Nodup →
          ((parseCommitInfoOutput (renderBatch (chunks.map chunkText)) headHash
            pub).map (fun c => c.hash)).Nodup) := by
  have h := parseCommitInfoOutput_renderBatch chunks headHash pub hwf
  refine ⟨h, ?_, ?_⟩
  · have := congrArg List.length h
    simpa using this
  · intro hnd
    rw [h]
    exact hnd

def c1WitnessBatch : List BatchChunk :=
  [.good dupRecordA,
   .good ⟨"bbb".toList, "second title".toList, "Bob <b@example.com>".toList,
     "2024-01-02T00:00:00Z".toList, "aaa".toList, "HEAD -> main".toList,
     "second title".toList⟩,
   .bad "this chunk has no field separators".toList]

theorem claim_C1_witness :
    (∀ c ∈ c1WitnessBatch, ChunkWF c) ∧
      ((parseCommitInfoOutput (renderBatch (c1WitnessBatch.map chunkText))
            "bbb".toList none).map (fun c => c.hash)
          = (goodRecords c1WitnessBatch).map (fun r => trimL r.hash)
        ∧ (parseCommitInfoOutput (renderBatch (c1WitnessBatch.map chunkText))
            "bbb".toList none).length = (goodRecords c1WitnessBatch).length
        ∧ (((goodRecords c1WitnessBatch).map (fun r => trimL r.hash)).Nodup →
            ((parseCommitInfoOutput (renderBatch (c1WitnessBatch.map chunkText))
              "bbb".toList none).map (fun c => c.hash)).Nodup)) :=
  ⟨by decide, claim_C1_theorem c1WitnessBatch "bbb".toList none (by decide)⟩

/-! ## Claim C3 -/

theorem parseChunk_isDot (headHash : List Char) (pub : Option (List (List Char)))
    (chunk : List Char) (c : CommitInfo)
    (h : parseChunk headHash pub chunk = some c) :
    c.isDot = decide (c.hash = headHash) := by
  unfold parseChunk at h
  simp only at h
  split_ifs at h
  injection h with h
  subst h
  rfl

/-- C3: `isDot` (the `isHead` flag) is computed by exact string equality of
the parsed hash with the supplied `headHash`; hence the number of records
with `isDot = true` equals the number of records whose hash equals
`headHash`, and in particular exactly one record is the head iff exactly
one record's hash equals the head hash — for every input, with no failure
possible (`parseCommitInfoOutput` is total). -/
theorem claim_C3_theorem (output headHash : List Char)
    (pub : Option (List (List Char))) :
    ((parseCommitInfoOutput output headHash pub).all fun c =>
        c.isDot == decide (c.hash = headHash)) = true
      ∧ (parseCommitInfoOutput output headHash pub).countP (fun c => c.isDot)
        = (parseCommitInfoOutput output headHash pub).countP
            (fun c => decide (c.hash = headHash))
      ∧ ((parseCommitInfoOutput output headHash pub).countP (fun c => c.isDot) = 1
        ↔ (parseCommitInfoOutput output headHash pub).countP
            (fun c => decide (c.hash = headHash)) = 1) := by
  have key : ∀ c ∈ parseCommitInfoOutput output headHash pub,
      c.isDot = decide (c.hash = headHash) := by
    intro c hc
    rcases List.mem_filterMap.mp hc with ⟨chunk, _, hpc⟩
    exact parseChunk_isDot headHash pub chunk c hpc
  have hcount : (parseCommitInfoOutput output headHash pub).countP
        (fun c => c.isDot)
      = (parseCommitInfoOutput output headHash pub).countP
        (fun c => decide (c.hash = headHash)) :=
    List.countP_congr fun c hc => by rw [key c hc]
  refine ⟨?_, hcount, by rw [hcount]⟩
  rw [List.all_eq_true]
  intro c hc
  rw [key c hc]
  simp

/-! ## Uncommitted-changes status parsing (claim C4),
from `Repository.fetchUncommittedChanges` -/

/-- A changed file in ISL's type system: `status` is one of the literal
characters 'M' (modified), 'A' (added), 'R' (removed), 'U' (unmerged),
'?' (untracked), '!' (ignored/missing); `copy` is the rename/copy source
path when present. -/
structure ChangedFile where
  path : List Char
  status : Char
  copy : Option (List Char) := none
deriving DecidableEq, Repr

/-- The status-code dispatch of `fetchUncommittedChanges`
(`Repository.ts` lines 718-735), applied to the trimmed two-character
code. -/
def statusFromCode (statusCode : List Char) : Char :=
  if statusCode = "??".toList then '?'
  else if statusCode = "M".toList ∨ statusCode = "MM".toList
      ∨ statusCode = "AM".toList then 'M'
  else if statusCode = "A".toList then 'A'
  else if statusCode = "D".toList then 'R'
  else if statusCode = "R".toList then 'A'
  else if statusCode = "UU".toList ∨ statusCode = "AA".toList
      ∨ statusCode = "DD".toList then 'U'
  else if statusCode = "!".toList then '!'
  else 'M'

/-- One line of `git status --porcelain=v1` as parsed by
`fetchUncommittedChanges`: code = `line.substring(0,2).trim()`,
path = `line.substring(3)`. -/
def parseStatusLine (line : List Char) : ChangedFile :=
  { path := line.drop 3
    status := statusFromCode (trimL (line.take 2))
    copy := none }

/-- The pure parsing core of `fetchUncommittedChanges`: split stdout into
lines, keep lines of length at least 2, parse each. -/
def fetchUncommittedChangesFiles (stdout : List Char) : List ChangedFile :=
  ((splitOnL ['\n'] stdout).filter fun l => 2 ≤ l.length).map parseStatusLine

/-- C4, counterexample to the claim as stated: an ignored-file line
`!! ignored.txt` does NOT get the ignored/missing status '!'.  The code
compares the trimmed two-character code against the single character '!',
which `"!!"` never equals, so the line falls through to the modified
fallback 'M'. -/
theorem claim_C4_counterexample :
    (parseStatusLine "!! ignored.txt".toList).status = 'M' ∧
      (parseStatusLine "!! ignored.txt".toList).status ≠ '!' := by
  refine ⟨by decide, by decide⟩

/-- C4 (amended): `??` yields untracked ('?') and the `UU`/`AA`/`DD`
unmerged family yields unmerged ('U'), with the path taken from the
fourth character on, and the scenario
`["?? foo.txt", " M bar.txt", "UU baz.txt"]` parses to foo.txt untracked,
bar.txt modified, baz.txt unmerged; but a `!!` code does NOT yield the
ignored/missing status — it falls through to the modified fallback 'M'
('!' is produced only when the trimmed two-character code is exactly
"!"). -/
theorem claim_C4_theorem (p : List Char) :
    ((parseStatusLine ('?' :: '?' :: ' ' :: p)).status = '?'
        ∧ (parseStatusLine ('?' :: '?' :: ' ' :: p)).path = p)
      ∧ ((parseStatusLine ('U' :: 'U' :: ' ' :: p)).status = 'U'
        ∧ (parseStatusLine ('U' :: 'U' :: ' ' :: p)).path = p)
      ∧ (parseStatusLine ('A' :: 'A' :: ' ' :: p)).status = 'U'
      ∧ (parseStatusLine ('D' :: 'D' :: ' ' :: p)).status = 'U'
      ∧ (parseStatusLine ('!' :: '!' :: ' ' :: p)).status = 'M'
      ∧ (parseStatusLine (' ' :: 'M' :: ' ' :: p)).status = 'M'
      ∧ fetchUncommittedChangesFiles "?? foo.txt\n M bar.txt\nUU baz.txt".toList
        = [⟨"foo.txt".toList, '?', none⟩, ⟨"bar.txt".toList, 'M', none⟩,
            ⟨"baz.txt".toList, 'U', none⟩] :=
  ⟨⟨rfl, rfl⟩, ⟨rfl, rfl⟩, rfl, rfl, rfl, rfl, by decide⟩

/-! ## Changed-files parsing (claim C10), from
`parseChangedFilesOutput` in `templates.ts` and
`Repository.getAllChangedFiles` -/

/-- The constant `MAX_FETCHED_FILES_PER_COMMIT` from `commands.ts`. -/
def MAX_FETCHED_FILES_PER_COMMIT : Nat := 25

/-- The nonempty lines of `git diff-tree --name-status` output. -/
def changedFileLines (output : List Char) : List (List Char) :=
  (splitOnL ['\n'] (trimL output)).filter fun l => 0 < l.length

/-- One line of name-status output; `none` models the `continue` on lines
with fewer than two tab-separated parts.  A rename/copy source path is
recorded only when nonempty (JS truthiness of `copy`). -/
def parseChangedFileLine (line : List Char) : Option ChangedFile :=
  let parts := splitOnL ['\t'] line
  if parts.length < 2 then none
  else
    let statusCode := parts.getD 0 []
    let filePath := parts.getD (parts.length - 1) []
    let cp := parts.getD 1 []
    let copySource : Option (List Char) := if cp = [] then none else some cp
    if statusCode = "M".toList then some ⟨filePath, 'M', none⟩
    else if statusCode = "A".toList then some ⟨filePath, 'A', none⟩
    else if statusCode = "D".toList then some ⟨filePath, 'R', none⟩
    else if leadMatch "R".toList statusCode then some ⟨filePath, 'A', copySource⟩
    else if leadMatch "C".toList statusCode then some ⟨filePath, 'A', copySource⟩
    else if statusCode = "U".toList then some ⟨filePath, 'U', none⟩
    else some ⟨filePath, 'M', none⟩

structure ChangedFilesResult where
  filesSample : List ChangedFile
  totalFileCount : Nat
deriving DecidableEq, Repr

/-- Definition of `parseChangedFilesOutput` from `templates.ts`. -/
def parseChangedFilesOutput (output : List Char) : ChangedFilesResult :=
  let files := (changedFileLines output).filterMap parseChangedFileLine
  { filesSample := files.take MAX_FETCHED_FILES_PER_COMMIT
    totalFileCount := files.length }

/-- The pure core of `Repository.getAllChangedFiles`: it returns only the
`filesSample` of the parse result. -/
def getAllChangedFilesResult (output : List Char) : List ChangedFile :=
  (parseChangedFilesOutput output).filesSample

theorem length_filterMap_eq_countP {α β : Type} (f : α → Option β) :
    ∀ l : List α, (l.filterMap f).length = l.countP fun x => (f x).isSome := by
  intro l
  induction l with
  | nil => rfl
  | cons x xs ih =>
    rw [List.filterMap_cons, List.countP_cons]
    cases hfx : f x with
    | none => simp [hfx, ih]
    | some b => simp [hfx, ih]

theorem parseChangedFileLine_isSome (line : List Char) :
    (parseChangedFileLine line).isSome
      = decide (2 ≤ (splitOnL ['\t'] line).length) := by
  unfold parseChangedFileLine
  simp only
  by_cases h : (splitOnL ['\t'] line).length < 2
  · rw [if_pos h]
    simp
    omega
  · rw [if_neg h]
    split_ifs <;> simp <;> omega

/-- C10: the sample returned for a commit's changed files contains at most
`MAX_FETCHED_FILES_PER_COMMIT = 25` entries — exactly the first 25 parsed
lines in order — while `totalFileCount` counts all parseable lines; hence
`getAllChangedFiles` returns at most 25 files regardless of how many files
the commit touched. -/
theorem claim_C10_theorem (output : List Char) :
    (parseChangedFilesOutput output).filesSample.length
        ≤ MAX_FETCHED_FILES_PER_COMMIT
      ∧ (parseChangedFilesOutput output).filesSample
        = ((changedFileLines output).filterMap parseChangedFileLine).take
            MAX_FETCHED_FILES_PER_COMMIT
      ∧ (parseChangedFilesOutput output).totalFileCount
        = (changedFileLines output).countP
            (fun line => decide (2 ≤ (splitOnL ['\t'] line).length))
      ∧ (getAllChangedFilesResult output).length ≤ 25
      ∧ MAX_FETCHED_FILES_PER_COMMIT = 25 := by
  refine ⟨?_, rfl, ?_, ?_, rfl⟩
  · simp [parseChangedFilesOutput]
  · show ((changedFileLines output).filterMap parseChangedFileLine).length = _
    rw [length_filterMap_eq_countP]
    exact List.countP_congr fun line _ => by rw [parseChangedFileLine_isSome line]
  · simpa [getAllChangedFilesResult, MAX_FETCHED_FILES_PER_COMMIT] using
      (by simp [parseChangedFilesOutput, MAX_FETCHED_FILES_PER_COMMIT] :
        (parseChangedFilesOutput output).filesSample.length ≤ 25)

/-! ## Commit fetch result (claim C6), from
`Repository.fetchSmartlogCommits` -/

/-- The `ErrorShortMessages.NoCommitsFetched` value (the error thrown by
`fetchSmartlogCommits` when zero commits parse). -/
inductive FetchError where
  | noCommitsFetched
deriving DecidableEq, Repr

structure StableInfo where
  hash : List Char
  name : List Char
  info : Option (List Char)
deriving DecidableEq, Repr

/-- Definition of `attachStableLocations` from `templates.ts`: merge stable-location
metadata onto matching commits (a per-commit update, length-preserving). -/
def attachStableLocations (commits : List CommitInfo)
    (locations : List StableInfo) : List CommitInfo :=
  commits.map fun c =>
    let matching := locations.filter fun l => decide (l.hash = c.hash)
    if matching.isEmpty then c
    else
      { c with
        stableCommitMetadata :=
          some ((c.stableCommitMetadata.getD []) ++
            matching.map fun l => ⟨l.name, l.info.getD []⟩) }

/-- The pure core of `Repository.fetchSmartlogCommits` on the success path
of the external `log` command: parse the trimmed stdout, promote an empty
parse to the `NoCommitsFetched` error (the `throw` inside the `try` block),
otherwise publish the commit list with stable locations attached.  (The
optional Graphite-state and PR-diff-id overlays sit in their own
`try`/`catch` / null-guard and do not affect emptiness; they are the
missing-tool path here.) -/
def fetchSmartlogCommitsResult (stdout headHash : List Char)
    (pub : Option (List (List Char))) (stableLocations : List StableInfo) :
    Except FetchError (List CommitInfo) :=
  let commits := parseCommitInfoOutput (trimL stdout) headHash pub
  if commits.length = 0 then .error .noCommitsFetched
  else .ok (attachStableLocations commits stableLocations)

/-- C6: if the log command succeeds but zero commit records parse from its
output, the published snapshot carries the `NoCommitsFetched` error; and a
successful snapshot never carries an empty commit list. -/
theorem claim_C6_theorem (stdout headHash : List Char)
    (pub : Option (List (List Char))) (locs : List StableInfo) :
    (parseCommitInfoOutput (trimL stdout) headHash pub = [] →
        fetchSmartlogCommitsResult stdout headHash pub locs
          = .error .noCommitsFetched)
      ∧ ∀ l, fetchSmartlogCommitsResult stdout headHash pub locs = .ok l →
          l ≠ [] := by
  constructor
  · intro h
    unfold fetchSmartlogCommitsResult
    rw [h]
    rfl
  · intro l hl
    unfold fetchSmartlogCommitsResult at hl
    simp only at hl
    by_cases h : (parseCommitInfoOutput (trimL stdout) headHash pub).length = 0
    · rw [if_pos h] at hl
      exact absurd hl (by simp)
    · rw [if_neg h] at hl
      injection hl with hl
      subst hl
      intro hemp
      have := congrArg List.length hemp
      simp only [attachStableLocations, List.length_map, List.length_nil] at this
      exact h this

theorem claim_C6_witness :
    (parseCommitInfoOutput (trimL "no records here".toList) "abc".toList
        none = [])
      ∧ fetchSmartlogCommitsResult "no records here".toList "abc".toList
          none [] = .error .noCommitsFetched :=
  ⟨by decide,
    ( claim_C6_theorem "no records here".toList "abc".toList none []).1
      (by decide)⟩

/-! ## Change-notification hold-off (claim C7), from the `shouldWait` /
`callback` closures in `Repository`'s constructor -/

/-- The `KindOfChange` type from `WatchForChanges`. -/
inductive KindOfChange where
  | uncommittedChanges
  | commits
  | mergeConflicts
  | everything
deriving DecidableEq, Repr

/-- The poll kind: `PollKind = PageVisibility | 'force'`. -/
inductive PollKind where
  | focused
  | visible
  | hidden
  | force
deriving DecidableEq, Repr

/-- The refetches the constructor callback can trigger. -/
inductive RefetchAction where
  | fetchUncommittedChanges
  | fetchSmartlogCommits
  | checkForMergeConflicts
  | triggerDiffSummariesFetch
deriving DecidableEq, Repr

/-- Definition of `shouldWait` from the `Repository` constructor: an operation is
running (its start time is known) and less than the hold-off window has
elapsed. -/
def shouldWait (runningStart : Option Nat) (now holdOffMs : Nat) : Bool :=
  match runningStart with
  | none => false
  | some t => decide (now - t < holdOffMs)

/-- The per-kind dispatch of the constructor callback. -/
def dispatchKind : KindOfChange → List RefetchAction
  | .uncommittedChanges => [.fetchUncommittedChanges]
  | .commits => [.fetchSmartlogCommits]
  | .mergeConflicts => [.checkForMergeConflicts]
  | .everything =>
      [.fetchUncommittedChanges, .fetchSmartlogCommits,
        .checkForMergeConflicts, .triggerDiffSummariesFetch]

/-- The constructor callback handed to `WatchForChanges`
(`Repository.ts` lines 192-219): a non-forced notification during the
hold-off does nothing; otherwise dispatch on the kind of change. -/
def watchChangeCallback (kind : KindOfChange) (pollKind : Option PollKind)
    (runningStart : Option Nat) (now holdOffMs : Nat) : List RefetchAction :=
  if pollKind ≠ some .force ∧ shouldWait runningStart now holdOffMs = true then []
  else dispatchKind kind

/-- The initial value of `configHoldOffRefreshMs`. -/
def defaultHoldOffRefreshMs : Nat := 10000

/-- Models `applyConfigInBackground` for `isl.hold-off-refresh-ms`: a
successfully parsed non-negative integer replaces the current value
(`configValue = none` models both an absent config and a `parseInt`
failure). -/
def applyHoldOffConfig (configValue : Option Int) (current : Nat) : Nat :=
  match configValue with
  | none => current
  | some n => if 0 ≤ n then n.toNat else current

/-- C7: while a mutating operation has been running for less than the
hold-off window (default 10000 ms, configurable), a non-forced
notification triggers no refetch of any kind; a notification with poll
kind 'force' always dispatches the kind's refetches, regardless of the
elapsed time. -/
theorem claim_C7_theorem (kind : KindOfChange) (pollKind : Option PollKind)
    (t now holdOffMs : Nat) :
    (pollKind ≠ some .force → now - t < holdOffMs →
        watchChangeCallback kind pollKind (some t) now holdOffMs = [])
      ∧ watchChangeCallback kind (some .force) (some t) now holdOffMs
          = dispatchKind kind
      ∧ dispatchKind kind ≠ []
      ∧ defaultHoldOffRefreshMs = 10000
      ∧ (∀ n : Int, 0 ≤ n →
          applyHoldOffConfig (some n) defaultHoldOffRefreshMs = n.toNat) := by
    refine ⟨?_, ?_, ?_, rfl, ?_⟩
    · intro hnf hlt
      unfold watchChangeCallback
      rw [if_pos ⟨hnf, by simp [shouldWait, hlt]⟩]
    · unfold watchChangeCallback
      rw [if_neg (by simp)]
    · cases kind <;> simp [dispatchKind]
    · intro n hn
      simp [applyHoldOffConfig, hn]

theorem claim_C7_witness :
    ((some PollKind.visible : Option PollKind) ≠ some PollKind.force
        ∧ (5000 : Nat) - 2000 < 10000)
      ∧ (watchChangeCallback KindOfChange.commits (some PollKind.visible)
            (some 2000) 5000 10000 = []
        ∧ watchChangeCallback KindOfChange.commits (some PollKind.force)
            (some 2000) 5000 10000 = dispatchKind KindOfChange.commits) := by
  have h := claim_C7_theorem KindOfChange.commits (some PollKind.visible)
    2000 5000 10000
  exact ⟨⟨by decide, by decide⟩,
    h.1 (by decide) (by decide),
    (claim_C7_theorem KindOfChange.commits (some PollKind.force)
      2000 5000 10000).2.1⟩

/-! ## Subscription semantics (claim C8) -/

/-- Modelled from the spec: `TypedEventEmitter` (`shared/TypedEventEmitter`
is not under `src/`) delivers each emitted value to every registered
subscriber — "Subscriptions deliver the full new snapshot on every
change".  Subscribers are identified by numbers; a delivery is a pair of
subscriber and the delivered snapshot. -/
def emitToSubscribers {α : Type} (subscribers : List Nat) (snapshot : α) :
    List (Nat × α) :=
  subscribers.map fun s => (s, snapshot)

/-- Models `Repository.subscribeToUncommittedChanges` (lines 692-701): it only
registers the callback on the emitter — the list of snapshots delivered
synchronously to the new subscriber at subscription time is empty, no
matter what the current cached value is. -/
def subscribeToUncommittedChangesReplay {α : Type} (_current : Option α) :
    List α := []

/-- Models `Repository.subscribeToSmartlogCommitsChanges` (lines 765-772):
likewise, no synchronous replay. -/
def subscribeToSmartlogCommitsChangesReplay {α : Type} (_current : Option α) :
    List α := []

/-- Models `Repository.onChangeConflictState` (lines 344-355): the current merge
conflicts are replayed synchronously iff one is currently set
(`if (this.mergeConflicts) callback(this.mergeConflicts)`). -/
def onChangeConflictStateReplay {α : Type} : Option α → List α
  | some c => [c]
  | none => []

/-- C8, counterexample to the claim as stated: a new subscriber to
uncommitted changes receives NO synchronous replay even when a current
value exists — the claimed replay-to-new-subscribers behaviour holds only
for the conflicts subscription. -/
theorem claim_C8_counterexample :
    subscribeToUncommittedChangesReplay (some (0 : Nat)) = []
      ∧ subscribeToUncommittedChangesReplay (some (0 : Nat)) ≠ [0] :=
  ⟨rfl, by decide⟩

/-- C8 (amended): every change publishes the full new snapshot to every
subscriber, but only the conflicts subscription synchronously replays the
current value to a newly added subscriber — and only when the repository
is currently in a conflict state; the commits and uncommitted-changes
subscriptions deliver nothing at subscription time. -/
theorem claim_C8_theorem {α : Type} (subscribers : List Nat) (snapshot : α)
    (current : Option α) (c : α) :
    (emitToSubscribers subscribers snapshot).length = subscribers.length
      ∧ (∀ d ∈ emitToSubscribers subscribers snapshot, d.2 = snapshot)
      ∧ subscribeToUncommittedChangesReplay current = []
      ∧ subscribeToSmartlogCommitsChangesReplay current = []
      ∧ onChangeConflictStateReplay (some c) = [c]
      ∧ onChangeConflictStateReplay (none : Option α) = [] := by
  refine ⟨by simp [emitToSubscribers], ?_, rfl, rfl, rfl, rfl⟩
  intro d hd
  rcases List.mem_map.mp hd with ⟨s, _, rfl⟩
  rfl

/-! ## Single-flight refetches (claim C2) -/

/-- Modelled from the spec: `serializeAsyncCall` (`isl-server`'s
`utils.ts` is not under `src/`), which wraps `fetchSmartlogCommits` —
"concurrent calls to the same refetch collapse into the single in-flight
request's result (single-flight per kind)": a request arriving while one
is in flight is coalesced and starts no new execution; a request arriving
when idle starts exactly one execution. -/
structure SingleFlightState where
  inFlight : Bool
  executions : Nat
deriving DecidableEq, Repr

inductive SingleFlightEvent where
  | request
  | complete
deriving DecidableEq, Repr

def singleFlightStep (s : SingleFlightState) : SingleFlightEvent → SingleFlightState
  | .request => if s.inFlight then s else ⟨true, s.executions + 1⟩
  | .complete => ⟨false, s.executions⟩

def singleFlightRun (events : List SingleFlightEvent) : SingleFlightState :=
  events.foldl singleFlightStep ⟨false, 0⟩

/-- C2: two concurrent calls to the serialized commit refetch issue
exactly one underlying execution — the second request, arriving while the
first is in flight, is coalesced into the in-flight request (the state is
unchanged: no new process starts), so refetches of the same kind never
run concurrently. -/
theorem claim_C2_theorem :
    (singleFlightRun [.request, .request, .complete]).executions = 1
      ∧ (singleFlightRun [.request, .request]).inFlight = true
      ∧ ∀ s : SingleFlightState, s.inFlight = true →
          singleFlightStep s .request = s := by
  refine ⟨rfl, rfl, ?_⟩
  intro s hs
  simp [singleFlightStep, hs]

theorem claim_C2_witness :
    (SingleFlightState.mk true 1).inFlight = true
      ∧ singleFlightStep ⟨true, 1⟩ .request = ⟨true, 1⟩ :=
  ⟨rfl, claim_C2_theorem.2.2 ⟨true, 1⟩ rfl⟩

/-! ## Force-poll after operations (claim C5) -/

inductive OperationOutcome where
  | success
  | failure
  | aborted
deriving DecidableEq, Repr

/-- Modelled from the spec: `OperationQueue.runOrQueueOperation`
(`OperationQueue.ts` is not under `src/`) resolves with `'skipped'` only
for an operation that never ran (queued and cancelled before start, which
spawns no process); an operation that ran to any terminal state —
success, failure, or abort — resolves with its outcome, never by
throwing. -/
inductive QueueRunResult where
  | ran (outcome : OperationOutcome)
  | skipped
deriving DecidableEq, Repr

/-- Models `Repository.runOrQueueOperation` (lines 540-552): after awaiting the
queue, poll the `ChangeWatcher` with 'force' unless the result was
`'skipped'`. -/
def pollsAfterOperation (result : QueueRunResult) : List PollKind :=
  if result = .skipped then [] else [.force]

/-- C5: whenever an operation run through `runOrQueueOperation` reaches a
terminal state (success, failure, or abort), the engine triggers exactly
one force-poll of the `ChangeWatcher`, unconditionally on the outcome. -/
theorem claim_C5_theorem (outcome : OperationOutcome) :
    pollsAfterOperation (.ran outcome) = [.force] := by
  cases outcome <;> rfl

/-! ## Dirstate-watch classification and debounce (claim C9), from
`WatchForChanges.setupWatchmanDirstateSubscriptions` -/

/-- The conflict-marker test of the dirstate subscription's change
handler. -/
def hasConflictChange (changes : List (List Char)) : Bool :=
  changes.any fun c =>
    decide (c = "MERGE_HEAD".toList) || decide (c = "REBASE_HEAD".toList)
      || decide (c = "CHERRY_PICK_HEAD".toList)

/-- The repository-state test of the dirstate subscription's change
handler: `HEAD`, `index`, or anything under `refs/`. -/
def hasRepoChange (changes : List (List Char)) : Bool :=
  changes.any fun c =>
    decide (c = "HEAD".toList) || decide (c = "index".toList)
      || leadMatch "refs/".toList c

/-- The kinds with which one watchman notification batch invokes the
(debounced) `changeCallback`, in source order: the conflict handler fires
with 'merge conflicts', the repository-state handler fires with
'everything' — the watcher never sends the 'commits' kind. -/
def dirstateChangeKinds (changes : List (List Char)) : List KindOfChange :=
  (if hasConflictChange changes then [.mergeConflicts] else [])
    ++ (if hasRepoChange changes then [.everything] else [])

/-- Modelled from the spec: `debounce` (`shared/debounce` is not under
`src/`) with window `w` is a trailing-edge debounce — a burst of calls
coalesces and the wrapped function fires once `w` ms after the last call
of the burst ("Debounce window for state-change events: 100ms coalescing
of bursts").  `debounceFireCount w times` counts the firings for calls at
the given nondecreasing timestamps: a firing happens after each call whose
successor arrives more than `w` later, plus once after the final call. -/
def debounceFireCount (w : Nat) : List Nat → Nat
  | [] => 0
  | [_] => 1
  | t₁ :: t₂ :: rest =>
      (if t₁ + w < t₂ then 1 else 0) + debounceFireCount w (t₂ :: rest)

/-- C9, counterexample to the claim as stated: a notification for `HEAD`
is classified as the 'everything' category, not as a dedicated
commits-changed category — the 'commits' kind is never produced by the
watcher. -/
theorem claim_C9_counterexample :
    dirstateChangeKinds ["HEAD".toList] = [KindOfChange.everything]
      ∧ KindOfChange.commits ∉ dirstateChangeKinds ["HEAD".toList] :=
  ⟨by decide, by decide⟩

/-- C9 (amended): HEAD and `refs/` notifications make the watcher invoke
its (100 ms-debounced) handler with the 'everything' kind (which includes
the commits refetch), and three calls within 50 ms of each other produce
exactly one callback firing after the 100 ms debounce window. -/
theorem claim_C9_theorem (changes : List (List Char)) (a b c : Nat) :
    ("HEAD".toList ∈ changes →
        KindOfChange.everything ∈ dirstateChangeKinds changes)
      ∧ (∀ r ∈ changes, leadMatch "refs/".toList r = true →
          KindOfChange.everything ∈ dirstateChangeKinds changes)
      ∧ (a ≤ b → b ≤ c → c ≤ a + 50 → debounceFireCount 100 [a, b, c] = 1) := by
  refine ⟨?_, ?_, ?_⟩
  · intro h
    have hrepo : hasRepoChange changes = true := by
      rw [hasRepoChange, List.any_eq_true]
      exact ⟨"HEAD".toList, h, by simp⟩
    simp [dirstateChangeKinds, hrepo]
  · intro r hr hlead
    have hlead2 : leadMatch ['r', 'e', 'f', 's', '/'] r = true := hlead
    have hrepo : hasRepoChange changes = true := by
      rw [hasRepoChange, List.any_eq_true]
      exact ⟨r, hr, by simp [hlead2]⟩
    simp [dirstateChangeKinds, hrepo]
  · intro hab hbc hca
    simp only [debounceFireCount]
    rw [if_neg (by omega), if_neg (by omega)]

theorem claim_C9_witness :
    ("HEAD".toList ∈ ["HEAD".toList, "refs/heads/main".toList]
        ∧ (0 : Nat) ≤ 20 ∧ (20 : Nat) ≤ 40 ∧ (40 : Nat) ≤ 0 + 50)
      ∧ (KindOfChange.everything
            ∈ dirstateChangeKinds ["HEAD".toList, "refs/heads/main".toList]
        ∧ debounceFireCount 100 [0, 20, 40] = 1) :=
  ⟨⟨by decide, by decide, by decide, by decide⟩,
    ( claim_C9_theorem ["HEAD".toList, "refs/heads/main".toList] 0 20 40).1
      (by decide),
    ( claim_C9_theorem ["HEAD".toList, "refs/heads/main".toList] 0 20 40).2.2
      (by decide) (by decide) (by decide)⟩

theorem claim_C8_witness :
    ((1, 7) ∈ emitToSubscribers [0, 1] (7 : Nat))
      ∧ ((1, 7) : Nat × Nat).2 = 7 :=
  ⟨by decide, (claim_C8_theorem [0, 1] 7 (some 5) 9).2.1 (1, 7) (by decide)⟩
